import Mathlib

/-
Verification of the simple_events input-binding engine.

The Python data structures are shallowly embedded as follows:
* a Python dict is an insertion-ordered association list (`List (α × β)`),
  which is exactly the observable behaviour of CPython dicts: lookup by key,
  `setdefault` appends a fresh key at the end, value mutation keeps the key
  position, `pop` deletes the entry;
* machine integers (key codes, modifier bitmasks, event types) are `Nat`;
  joystick event attribute values are `Int`; handlers and classes are opaque
  `Nat` identifiers;
* raising is modelled with `Option`: `none` stands for the raised exception
  (`ValueError` / `TypeError`) where the Python code raises.
-/

set_option synthInstance.maxSize 1024

namespace SimpleEvents

/-- Lookup in a Python dict embedded as an association list
(first entry with the key; dicts never hold duplicate keys). -/
def alookup {α β : Type} [DecidableEq α] : List (α × β) → α → Option β
  | [], _ => none
  | e :: rest, k => if e.1 = k then some e.2 else alookup rest k

/-- The effect of `d.setdefault(k, v0)` followed by an in-place
transformation `f` of the value: if `k` is present its value becomes
`f old` in place, otherwise the entry `(k, f v0)` is appended at the end. -/
def dupdate {α β : Type} [DecidableEq α] : List (α × β) → α → β → (β → β) → List (α × β)
  | [], k, v0, f => [(k, f v0)]
  | e :: rest, k, v0, f =>
    if e.1 = k then (e.1, f e.2) :: rest else e :: dupdate rest k v0 f

/-- Plain Python dict assignment `d[k] = v` / `d.update({k: v})`:
replace in place when present, append otherwise. -/
def aupdate {α β : Type} [DecidableEq α] (d : List (α × β)) (k : α) (v : β) :
    List (α × β) :=
  dupdate d k v (fun _ => v)

/-- `d.pop(k)`: remove the entry for `k`, returning its value and the rest. -/
def apop {α β : Type} [DecidableEq α] : List (α × β) → α → Option (β × List (α × β))
  | [], _ => none
  | e :: rest, k =>
    if e.1 = k then some (e.2, rest)
    else (apop rest k).map (fun r => (r.1, e :: r.2))

/-- Python `list.remove`-style removal of the first element satisfying `p`
(identity when no element satisfies `p`, matching the guarded
`if x in l: l.remove(x)` idiom of the source). -/
def removeOne {α : Type} (p : α → Bool) : List α → List α
  | [] => []
  | x :: rest => if p x then rest else x :: removeOne p rest

/-- joy_map.py `_invalid_params`: the attributes dropped from patterns. -/
def invalid_params : List String := ["value", "instance_id", "joy"]

/-- A joystick event given as a Python dict of attribute/value pairs. -/
abbrev EventDict := List (String × Int)

/-- joy_map.py: the tuple-of-pairs dict key produced by `_convert_event`. -/
abbrev Pattern := List (String × Int)

/-- A key of `JoyMap._joy_binds`: a pattern, or `None` for unbound binds. -/
abbrev JoyKey := Option Pattern

/-- The `_joy_binds` dict of a `JoyMap`. -/
abbrev JoyBinds := List (JoyKey × List String)

namespace JoyMap

/-- joy_map.py `JoyMap._convert_event` (dict branch): keep the attribute/value
pairs, in order, whose attribute is not in `_invalid_params`. -/
def convert_event (e : EventDict) : Pattern :=
  e.filter (fun p => decide (p.1 ∉ invalid_params))

/-- joy_map.py `JoyMap._convert_pairs`: `dict((k, v) for (k, v) in pairs)` —
insert each pair in order, a repeated key overwriting in place. -/
def convert_pairs (p : Pattern) : EventDict :=
  p.foldl (fun d kv => aupdate d kv.1 kv.2) []

/-- joy_map.py `JoyMap.get`: convert the event and look its pattern up,
with `[]` as the effective default. -/
def get (d : JoyBinds) (e : EventDict) : List String :=
  (alookup d (some (convert_event e))).getD []

/-- The scan at the heart of `JoyMap.get_bound_joystick_event`: the key of
the first entry whose bind list contains `b` (`none` = `ValueError`). -/
def bound_pattern (d : JoyBinds) (b : String) : Option JoyKey :=
  (d.find? (fun en => decide (b ∈ en.2))).map Prod.fst

/-- joy_map.py `JoyMap.get_bound_joystick_event`: `none` models the raised
`ValueError`; `some none` is an unbound bind; otherwise the stored pattern
is converted back to a dict. -/
def get_bound_joystick_event (d : JoyBinds) (b : String) : Option (Option EventDict) :=
  (bound_pattern d b).map (fun k => k.map convert_pairs)

/-- `self._joy_binds.setdefault(k, []).append(b)`. -/
def addToKey (d : JoyBinds) (k : JoyKey) (b : String) : JoyBinds :=
  dupdate d k [] (fun l => l ++ [b])

/-- joy_map.py `JoyMap.generate_bind`: no-op if `get_bound_joystick_event`
succeeds, first-time insertion when it raises. -/
def generate_bind (d : JoyBinds) (b : String) (jdata : Option EventDict) : JoyBinds :=
  match bound_pattern d b with
  | some _ => d
  | none => addToKey d (jdata.map convert_event) b

/-- joy_map.py `JoyMap.remove_bind`: strip the first occurrence of `b` from
every bind list, then drop every entry whose list is empty (the source
collects the dead keys during the loop and pops them afterwards, which
yields the same dict). -/
def remove_bind : JoyBinds → String → JoyBinds
  | [], _ => []
  | en :: rest, b =>
    let l := removeOne (fun s => decide (s = b)) en.2
    if l.isEmpty then remove_bind rest b else (en.1, l) :: remove_bind rest b

/-- joy_map.py `JoyMap._rebind`: remove the bind everywhere, then append it
under the new (already converted) key. -/
def rebind_raw (d : JoyBinds) (b : String) (k : JoyKey) : JoyBinds :=
  addToKey (remove_bind d b) k b

/-- joy_map.py `JoyMap.rebind`: convert the new event data (or keep `None`)
and delegate to `_rebind`. -/
def rebind (d : JoyBinds) (b : String) (jdata : Option EventDict) : JoyBinds :=
  rebind_raw d b (jdata.map convert_event)

/-- joy_map.py `JoyMap.merge`: `_rebind` every bind of `other` onto `self`,
using `other`'s key. -/
def merge (d other : JoyBinds) : JoyBinds :=
  other.foldl (fun acc en => en.2.foldl (fun a b => rebind_raw a b en.1) acc) d

/-- joy_map.py `JoyMap.pack_binds`: the bind-name-keyed projection used by
the persistence layer. -/
def pack_binds (d : JoyBinds) : List (String × JoyKey) :=
  d.foldl (fun acc en => en.2.foldl (fun a b => aupdate a b en.1) acc) []

/-- Number of occurrences of `b` in a bind list. -/
def scount (b : String) : List String → Nat
  | [] => 0
  | x :: rest => (if x = b then 1 else 0) + scount b rest

/-- Total number of occurrences of the bind name `b` across all bind lists. -/
def joyCount (b : String) : JoyBinds → Nat
  | [] => 0
  | en :: rest => scount b en.2 + joyCount b rest

/-- The table invariant of the spec: a bind name appears in at most one
value list, at most once (i.e. at most once across the whole table). -/
def inv (d : JoyBinds) : Prop := ∀ b, joyCount b d ≤ 1

end JoyMap

/-- file_parser.py `JSONParser._unpack_joystick`, with the accumulated dict
explicit. Iterating the pairs of one serialized bind (`for data_point in
joy_data`) raises `TypeError` when the stored trigger is `null`; the raise
is modelled by `none`. -/
def unpack_joystick_aux : JoyBinds → List (String × JoyKey) → Option JoyBinds
  | acc, [] => some acc
  | _, (_, none) :: _ => none
  | acc, (b, some p) :: rest => unpack_joystick_aux (JoyMap.addToKey acc (some p) b) rest

/-- file_parser.py `JSONParser._unpack_joystick` applied to the decoded
`"controller"` object of a saved file (JSON preserves the string keys and
the pair lists; `null` decodes to `None`). -/
def unpack_joystick (maps : List (String × JoyKey)) : Option JoyBinds :=
  unpack_joystick_aux [] maps

/-- key_map.py (not part of the provided sources) `KeyBind`.
Modelled from the spec: `\x7bbind_name: string, mod: integer-bitmask | None\x7d`,
`mod = None` meaning any modifier state matches. -/
structure KeyBind where
  bind_name : String
  mod : Option Nat
deriving DecidableEq

/-- The `key_binds` dict of a `KeyMap`: `mapping(key_code | None) →
ordered_list(KeyBind)`, `None` marking unbound binds. -/
abbrev KeyBinds := List (Option Nat × List KeyBind)

namespace KeyMap

/-- key_map.py `KeyMap.get_bound_key` is missing from the sources.
Modelled from the spec: linear scan of all lists, returning
`(key_code, mod)` of the first `KeyBind` carrying the name, and raising
(`none`) when the name is absent from every list. -/
def get_bound_key (m : KeyBinds) (b : String) : Option (Option Nat × Option Nat) :=
  match m with
  | [] => none
  | en :: rest =>
    match en.2.find? (fun kb => decide (kb.bind_name = b)) with
    | some kb => some (en.1, kb.mod)
    | none => get_bound_key rest b

/-- `key_binds.setdefault(k, []).append(kb)`. -/
def addToKey (m : KeyBinds) (k : Option Nat) (kb : KeyBind) : KeyBinds :=
  dupdate m k [] (fun l => l ++ [kb])

/-- key_map.py `KeyMap.generate_bind` is missing from the sources.
Modelled from the spec: if the name already has an entry anywhere in the
table, no-op; else insert `KeyBind(name, default_mod)` under `default_key`. -/
def generate_bind (m : KeyBinds) (b : String) (defKey defMod : Option Nat) : KeyBinds :=
  match get_bound_key m b with
  | some _ => m
  | none => addToKey m defKey ⟨b, defMod⟩

/-- key_map.py `KeyMap.remove_bind` is missing from the sources.
Modelled from the spec: scan all slots, strip the name from any list
containing it, delete any slot whose list becomes empty. -/
def remove_bind : KeyBinds → String → KeyBinds
  | [], _ => []
  | en :: rest, b =>
    let l := removeOne (fun kb => decide (kb.bind_name = b)) en.2
    if l.isEmpty then remove_bind rest b else (en.1, l) :: remove_bind rest b

/-- key_map.py `KeyMap.rebind` is missing from the sources.
Modelled from the spec: remove the bind name from its current slot, then
insert the new `KeyBind` under `new_key`. -/
def rebind (m : KeyBinds) (kb : KeyBind) (newKey : Option Nat) : KeyBinds :=
  addToKey (remove_bind m kb.bind_name) newKey kb

/-- key_map.py `KeyMap.merge` is missing from the sources.
Modelled from the spec: for every `(key_code, KeyBind-list)` entry of
`other`, for every bind in that list, call `rebind` on self using the
other table's slot and modifier — bind-granular, latter wins. -/
def merge (m other : KeyBinds) : KeyBinds :=
  other.foldl (fun acc en => en.2.foldl (fun a kb => rebind a kb en.1) acc) m

/-- Number of `KeyBind`s named `b` in one list. -/
def kbcount (b : String) : List KeyBind → Nat
  | [] => 0
  | kb :: rest => (if kb.bind_name = b then 1 else 0) + kbcount b rest

/-- Occurrences of the name `b` across all `KeyBind` lists of the table. -/
def keyCount (b : String) : KeyBinds → Nat
  | [] => 0
  | en :: rest => kbcount b en.2 + keyCount b rest

/-- Key-table invariant: a bind name appears at most once in the table. -/
def inv (m : KeyBinds) : Prop := ∀ b, keyCount b m ≤ 1

end KeyMap

/-- A pygame event as `_validate_input` and `_get_callables` see it:
`event.type`, plus `getattr(event, "key", None)` and
`getattr(event, "mod", None)`. -/
structure PEvent where
  type : Nat
  key : Option Nat
  mod : Option Nat

/-- key_manager.py `KeyListener._validate_input`. The source test is
`mod & mod_keys or mod is mod_keys`; `is` on CPython ints coincides with
`==` wherever it can decide this expression (it only matters when
`mod & mod_keys == 0` with `mod == mod_keys`, i.e. both zero, and CPython
interns small ints), so it is embedded as equality. -/
def validate_input (kb : KeyBind) (e : PEvent) : Bool :=
  match e.key with
  | none => false
  | some _ =>
    match kb.mod, e.mod with
    | none, _ => true
    | some _, none => false
    | some mo, some mk => ((mo &&& mk) != 0) || (mo == mk)

/-- `self.key_map.key_binds.get(key_changed, [])` from `_get_callables`. -/
def bindsUnder (m : KeyBinds) (k : Option Nat) : List KeyBind :=
  (alookup m k).getD []

/-- The key-path match filter of `_get_callables`: the stored bindings under
the event's key code that pass `_validate_input`. -/
def accepted_binds (m : KeyBinds) (e : PEvent) : List KeyBind :=
  (bindsUnder m e.key).filter (fun kb => validate_input kb e)

/-- Handlers and methods are opaque identifiers. -/
abbrev Handler := Nat

/-- `event_type → list of handlers` (innermost dict of `_key_hooks`). -/
abbrev EvHooks := List (Nat × List Handler)

/-- `concurrency flag → event_type → handlers` (a `_key_hooks` value). -/
abbrev ConcHooks := List (Bool × EvHooks)

/-- A `(method, owning class)` pair of `_class_listeners`. -/
abbrev MethodEntry := Handler × Nat

/-- `event_type → list of (method, class)` pairs. -/
abbrev MEvHooks := List (Nat × List MethodEntry)

/-- `concurrency flag → event_type → (method, class)` (a `_class_listeners`
value). -/
abbrev MConcHooks := List (Bool × MEvHooks)

/-- The state a single `KeyListener` sees: the class-level tables `key_map`
and `joy_map` together with the per-instance hook indexes created in
`__init__` (`_key_hooks`, `_class_listeners`, `_class_listener_binds`) and
the `_assigned_classes` registry used by method capture. -/
structure ListenerState where
  key_map : KeyBinds
  joy_map : JoyBinds
  key_hooks : List (String × ConcHooks)
  class_listeners : List (String × MConcHooks)
  class_listener_binds : List (Handler × List String)
  assigned_classes : List (Nat × List Handler)
deriving DecidableEq

/-- The listener with empty tables and no registrations. -/
def emptyListener : ListenerState := ⟨[], [], [], [], [], []⟩

/-- key_manager.py `KeyListener._rebind_key`: `(new state, warned, return)`.
`get_bound_key` raising becomes a warning, `None` return and no mutation;
on success the previous `(key, mod)` pair is returned. -/
def rebind_key (st : ListenerState) (b : String) (nk nm : Option Nat) :
    ListenerState × Bool × Option (Option Nat × Option Nat) :=
  match KeyMap.get_bound_key st.key_map b with
  | none => (st, true, none)
  | some old =>
    ({ st with key_map := KeyMap.rebind st.key_map ⟨b, nm⟩ nk }, false, some old)

/-- key_manager.py `KeyListener._rebind_joystick`: `(new state, warned,
return)`. The Python return value is `old_bind` (a dict or `None`) on
success and `None` after the warning. -/
def rebind_joystick (st : ListenerState) (b : String) (jdata : Option EventDict) :
    ListenerState × Bool × Option EventDict :=
  match JoyMap.get_bound_joystick_event st.joy_map b with
  | none => (st, true, none)
  | some old =>
    ({ st with joy_map := JoyMap.rebind st.joy_map b jdata }, false, old)

/-- `d.map`: set the value stored under `k` to the empty dict/list, leaving
absent keys absent (the effect of `call_list.clear()` guarded by the
truthiness checks in `clear_bind`). -/
def clearAt {α β : Type} [DecidableEq α] (d : List (α × List β)) (k : α) :
    List (α × List β) :=
  d.map (fun e => if e.1 = k then (e.1, []) else e)

/-- key_manager.py `KeyListener.clear_bind`: `(new state, warned)`.
With `eliminate_bind` the bind is popped from `_key_hooks` (warning and
stopping if absent there) and removed from both tables; without it, the
hook dicts of the bind are emptied in place when at least one of
`_key_hooks` / `_class_listeners` knows the name, and otherwise it warns. -/
def clear_bind (st : ListenerState) (b : String) (eliminate : Bool) :
    ListenerState × Bool :=
  if eliminate then
    match apop st.key_hooks b with
    | none => (st, true)
    | some (_, kh) =>
      ({ st with key_hooks := kh,
                 key_map := KeyMap.remove_bind st.key_map b,
                 joy_map := JoyMap.remove_bind st.joy_map b }, false)
  else
    if (alookup st.key_hooks b).isNone && (alookup st.class_listeners b).isNone then
      (st, true)
    else
      ({ st with key_hooks := clearAt st.key_hooks b,
                 class_listeners := clearAt st.class_listeners b }, false)

/-- The function handlers `_get_callables` gathers for bind `b`, concurrency
flag `conc` and event type `ty`:
`self._key_hooks.get(b, \x7b\x7d).get(conc, \x7b\x7d).get(ty, [])`. -/
def callablesFor (st : ListenerState) (b : String) (conc : Bool) (ty : Nat) :
    List Handler :=
  (alookup ((alookup ((alookup st.key_hooks b).getD []) conc).getD []) ty).getD []

/-- The class-method analogue of `callablesFor`, read from
`_class_listeners`. -/
def methodsFor (st : ListenerState) (b : String) (conc : Bool) (ty : Nat) :
    List MethodEntry :=
  (alookup ((alookup ((alookup st.class_listeners b).getD []) conc).getD []) ty).getD []

/-- key_manager.py `KeyListener._capture_method`: ensure the table entry
exists (joystick table when joystick data is supplied, key table
otherwise), then record the `(method, cls)` pair in `_class_listeners`,
the inverse mapping in `_class_listener_binds`, and the method under its
class in `_assigned_classes`. `conc` is the absence of the
`_runs_sequential` marker on the method. -/
def capture_method (st : ListenerState) (cls : Nat) (mthd : Handler) (conc : Bool)
    (name : String) (defKey defMod : Option Nat) (ty : Nat)
    (jdata : Option EventDict) : ListenerState :=
  let st1 :=
    match jdata with
    | some _ => { st with joy_map := JoyMap.generate_bind st.joy_map name jdata }
    | none => { st with key_map := KeyMap.generate_bind st.key_map name defKey defMod }
  { st1 with
    class_listeners :=
      dupdate st1.class_listeners name []
        (fun cd => dupdate cd conc []
          (fun ed => dupdate ed ty [] (fun l => l ++ [(mthd, cls)]))),
    class_listener_binds := dupdate st1.class_listener_binds mthd [] (fun l => l ++ [name]),
    assigned_classes := dupdate st1.assigned_classes cls [] (fun l => l ++ [mthd]) }

/-- The per-instance half of a `KeyListener` (the attributes assigned in
`__init__`), used by the system-level model. -/
structure LocalHooks where
  key_hooks : List (String × ConcHooks)
  class_listeners : List (String × MConcHooks)
  class_listener_binds : List (Handler × List String)
deriving DecidableEq

/-- The process-wide picture: `key_map` and `joy_map` are class attributes
of `KeyListener` — one object shared by all instances — while each live
listener (keyed by its handle, as in `KeyListener._listeners`) owns its
per-instance hook indexes. -/
structure SysState where
  key_map : KeyBinds
  joy_map : JoyBinds
  listeners : List (String × LocalHooks)
deriving DecidableEq

/-- The decorator body of key_manager.py `KeyListener.bind` (key branch),
run by listener `h`: `generate_bind` on the shared key table, then append
the responder under `(name, conc, ty)` in `h`'s own `_key_hooks` unless
already present. `addFuncHook` is the hook-index half of that decorator. -/
def addFuncHook (loc : LocalHooks) (name : String) (conc : Bool) (ty : Nat)
    (f : Handler) : LocalHooks :=
  { loc with key_hooks :=
      (dupdate loc.key_hooks name []
        (fun cd => dupdate cd conc []
          (fun ed => dupdate ed ty []
            (fun l => if f ∈ l then l else l ++ [f])))) }

def sys_bind_func (sys : SysState) (h : String) (name : String)
    (defKey defMod : Option Nat) (ty : Nat) (conc : Bool) (f : Handler) : SysState :=
  { sys with
    key_map := KeyMap.generate_bind sys.key_map name defKey defMod,
    listeners := sys.listeners.map (fun e =>
      if e.1 = h then (e.1, addFuncHook e.2 name conc ty f) else e) }

/-- key_manager.py `KeyListener._rebind_key` invoked on the listener with
handle `h`: it reads and writes the class attribute `key_map`, shared by
every instance, so only the shared component changes. -/
def sys_rebind_key (sys : SysState) (_h : String) (b : String) (nk nm : Option Nat) :
    SysState × Bool × Option (Option Nat × Option Nat) :=
  match KeyMap.get_bound_key sys.key_map b with
  | none => (sys, true, none)
  | some old =>
    ({ sys with key_map := KeyMap.rebind sys.key_map ⟨b, nm⟩ nk }, false, some old)

/-- What the listener with handle `h` observes for bind `b`: its
`self.key_map` is the class attribute, so the observation reads the shared
table. -/
def observe_bound_key (sys : SysState) (_h : String) (b : String) :
    Option (Option Nat × Option Nat) :=
  KeyMap.get_bound_key sys.key_map b

namespace JoyMap

@[simp] theorem scount_nil (b : String) : scount b [] = 0 := rfl

@[simp] theorem scount_cons (b x : String) (r : List String) :
    scount b (x :: r) = (if x = b then 1 else 0) + scount b r := rfl

@[simp] theorem removeOne_nil {α : Type} (p : α → Bool) : removeOne p [] = [] := rfl

theorem removeOne_cons {α : Type} (p : α → Bool) (x : α) (r : List α) :
    removeOne p (x :: r) = if p x then r else x :: removeOne p r := rfl

theorem scount_eq_zero_of_not_mem {b : String} {l : List String} (h : b ∉ l) :
    scount b l = 0 := by
  induction l with
  | nil => rfl
  | cons x r ih =>
    have hx : ¬ x = b := fun e => h (by rw [← e]; exact List.mem_cons_self x r)
    have hr : b ∉ r := fun m => h (List.mem_cons_of_mem _ m)
    simp [hx, ih hr]

theorem not_mem_of_scount_eq_zero {b : String} {l : List String}
    (h : scount b l = 0) : b ∉ l := by
  induction l with
  | nil => exact List.not_mem_nil b
  | cons x r ih =>
    rw [scount_cons] at h
    by_cases hx : x = b
    · rw [if_pos hx] at h
      exact absurd h (by omega)
    · rw [if_neg hx] at h
      intro hm
      rcases List.mem_cons.mp hm with he | hm2
      · exact hx he.symm
      · exact ih (by omega) hm2

theorem scount_eq_zero_iff {b : String} {l : List String} :
    scount b l = 0 ↔ b ∉ l :=
  ⟨not_mem_of_scount_eq_zero, scount_eq_zero_of_not_mem⟩

theorem scount_append (x : String) (l1 l2 : List String) :
    scount x (l1 ++ l2) = scount x l1 + scount x l2 := by
  induction l1 with
  | nil => simp
  | cons y r ih => rw [List.cons_append, scount_cons, scount_cons, ih]; omega

theorem scount_removeOne_self {b : String} (l : List String) :
    scount b (removeOne (fun s => decide (s = b)) l) = scount b l - 1 := by
  induction l with
  | nil => rfl
  | cons x r ih =>
    rw [removeOne_cons]
    by_cases hx : x = b
    · rw [if_pos (by simp [hx]), scount_cons, if_pos hx]
      omega
    · rw [if_neg (by simp [hx]), scount_cons, scount_cons, if_neg hx, ih]
      omega

theorem scount_removeOne_ne {x b : String} (hxb : x ≠ b) (l : List String) :
    scount x (removeOne (fun s => decide (s = b)) l) = scount x l := by
  induction l with
  | nil => rfl
  | cons y r ih =>
    rw [removeOne_cons]
    by_cases hy : y = b
    · have hyx : ¬ y = x := fun e => hxb (by rw [← e, hy])
      rw [if_pos (by simp [hy]), scount_cons, if_neg hyx]
      omega
    · rw [if_neg (by simp [hy]), scount_cons, scount_cons, ih]

theorem mem_removeOne {x b : String} (hxb : x ≠ b) {l : List String} :
    x ∈ removeOne (fun s => decide (s = b)) l ↔ x ∈ l := by
  have h0 := scount_removeOne_ne hxb l
  constructor
  · intro h
    by_contra hm
    rw [scount_eq_zero_of_not_mem hm] at h0
    exact not_mem_of_scount_eq_zero h0 h
  · intro h
    by_contra hm
    rw [scount_eq_zero_of_not_mem hm] at h0
    exact not_mem_of_scount_eq_zero h0.symm h

@[simp] theorem joyCount_nil (b : String) : joyCount b [] = 0 := rfl

@[simp] theorem joyCount_cons (b : String) (en : JoyKey × List String)
    (rest : JoyBinds) :
    joyCount b (en :: rest) = scount b en.2 + joyCount b rest := rfl

@[simp] theorem remove_bind_nil (b : String) : remove_bind [] b = [] := rfl

theorem remove_bind_cons (en : JoyKey × List String) (rest : JoyBinds) (b : String) :
    remove_bind (en :: rest) b =
      if (removeOne (fun s => decide (s = b)) en.2).isEmpty
      then remove_bind rest b
      else (en.1, removeOne (fun s => decide (s = b)) en.2) :: remove_bind rest b := rfl

theorem joyCount_remove_le (x b : String) (d : JoyBinds) :
    joyCount x (remove_bind d b) ≤ joyCount x d := by
  induction d with
  | nil => exact Nat.le_refl 0
  | cons en rest ih =>
    rw [remove_bind_cons]
    have hle : scount x (removeOne (fun s => decide (s = b)) en.2) ≤ scount x en.2 := by
      by_cases hx : x = b
      · rw [hx, scount_removeOne_self]; omega
      · rw [scount_removeOne_ne hx]
    split
    · rw [joyCount_cons]
      omega
    · rw [joyCount_cons, joyCount_cons]
      dsimp only
      omega

theorem joyCount_remove_ne {x b : String} (hxb : x ≠ b) (d : JoyBinds) :
    joyCount x (remove_bind d b) = joyCount x d := by
  induction d with
  | nil => rfl
  | cons en rest ih =>
    rw [remove_bind_cons]
    split
    · next hemp =>
      have hs : scount x en.2 = 0 := by
        rw [← scount_removeOne_ne hxb en.2]
        apply scount_eq_zero_of_not_mem
        intro hm
        rw [List.isEmpty_iff] at hemp
        rw [hemp] at hm
        exact List.not_mem_nil x hm
      rw [joyCount_cons, hs, Nat.zero_add, ih]
    · rw [joyCount_cons, joyCount_cons, scount_removeOne_ne hxb, ih]

theorem joyCount_remove_self {b : String} (d : JoyBinds) (h : joyCount b d ≤ 1) :
    joyCount b (remove_bind d b) = 0 := by
  induction d with
  | nil => rfl
  | cons en rest ih =>
    rw [joyCount_cons] at h
    rw [remove_bind_cons]
    split
    · exact ih (by omega)
    · rw [joyCount_cons, scount_removeOne_self, ih (by omega)]
      omega

theorem remove_bind_nonempty {b : String} {d : JoyBinds} {en : JoyKey × List String}
    (h : en ∈ remove_bind d b) : en.2 ≠ [] := by
  induction d with
  | nil => exact absurd h (List.not_mem_nil _)
  | cons en0 rest ih =>
    rw [remove_bind_cons] at h
    split at h
    · exact ih h
    · next hemp =>
      rcases List.mem_cons.mp h with he | hm
      · rw [he]
        intro hc
        rw [List.isEmpty_iff] at hemp
        exact hemp hc
      · exact ih hm

theorem bound_pattern_cons {en : JoyKey × List String} {rest : JoyBinds} {b : String} :
    bound_pattern (en :: rest) b = if b ∈ en.2 then some en.1 else bound_pattern rest b := by
  by_cases h : b ∈ en.2
  · rw [bound_pattern, List.find?_cons_of_pos _ (by simpa using h), if_pos h]
    rfl
  · rw [bound_pattern, List.find?_cons_of_neg _ (by simpa using h), if_neg h]
    rfl

theorem bound_pattern_eq_none_iff {b : String} {d : JoyBinds} :
    bound_pattern d b = none ↔ joyCount b d = 0 := by
  induction d with
  | nil => simp [bound_pattern]
  | cons en rest ih =>
    rw [bound_pattern_cons, joyCount_cons]
    by_cases h : b ∈ en.2
    · rw [if_pos h]
      constructor
      · intro hc; exact absurd hc (by simp)
      · intro hc
        have h1 : scount b en.2 = 0 := by omega
        exact absurd (not_mem_of_scount_eq_zero h1) (by simp [h])
    · rw [if_neg h, scount_eq_zero_of_not_mem h, Nat.zero_add]
      exact ih

theorem bound_pattern_remove_ne {x b : String} (hxb : x ≠ b) (d : JoyBinds) :
    bound_pattern (remove_bind d b) x = bound_pattern d x := by
  induction d with
  | nil => rfl
  | cons en rest ih =>
    rw [remove_bind_cons]
    split
    · next hemp =>
      rw [List.isEmpty_iff] at hemp
      have hx : x ∉ en.2 := by
        intro hm
        have hmm : x ∈ removeOne (fun s => decide (s = b)) en.2 :=
          (mem_removeOne hxb).mpr hm
        rw [hemp] at hmm
        exact List.not_mem_nil x hmm
      rw [bound_pattern_cons, if_neg hx]
      exact ih
    · rw [bound_pattern_cons, bound_pattern_cons]
      simp only [mem_removeOne hxb]
      split
      · rfl
      · exact ih

@[simp] theorem addToKey_nil (k : JoyKey) (b : String) :
    addToKey [] k b = [(k, [b])] := rfl

theorem addToKey_cons (en : JoyKey × List String) (rest : JoyBinds) (k : JoyKey)
    (b : String) :
    addToKey (en :: rest) k b =
      if en.1 = k then (en.1, en.2 ++ [b]) :: rest else en :: addToKey rest k b := by
  rw [addToKey, dupdate]
  split <;> rfl

theorem joyCount_addToKey (x b : String) (k : JoyKey) (d : JoyBinds) :
    joyCount x (addToKey d k b) = joyCount x d + (if x = b then 1 else 0) := by
  induction d with
  | nil =>
    by_cases hx : x = b <;>
      simp [hx, eq_comm, Nat.add_comm]
  | cons en rest ih =>
    rw [addToKey_cons]
    split
    · rw [joyCount_cons, joyCount_cons, scount_append]
      have : scount x [b] = (if x = b then 1 else 0) := by
        by_cases hx : x = b <;> simp [hx, eq_comm]
      omega
    · rw [joyCount_cons, joyCount_cons, ih]
      omega

theorem bound_pattern_addToKey_self {b : String} {k : JoyKey} {d : JoyBinds}
    (h : joyCount b d = 0) : bound_pattern (addToKey d k b) b = some k := by
  induction d with
  | nil => simp [bound_pattern_cons]
  | cons en rest ih =>
    rw [joyCount_cons] at h
    have hmem : b ∉ en.2 := not_mem_of_scount_eq_zero (by omega)
    rw [addToKey_cons]
    split
    · next hk =>
      rw [bound_pattern_cons]
      have hb : b ∈ en.2 ++ [b] := List.mem_append_right _ (List.mem_cons_self b [])
      rw [if_pos hb, hk]
    · rw [bound_pattern_cons, if_neg hmem]
      exact ih (by omega)

theorem bound_pattern_addToKey_ne {x b : String} (hxb : x ≠ b) (k : JoyKey)
    (d : JoyBinds) : bound_pattern (addToKey d k b) x = bound_pattern d x := by
  induction d with
  | nil =>
    rw [addToKey_nil, bound_pattern_cons, bound_pattern]
    have : x ∉ [b] := by
      intro hm
      exact hxb (List.mem_singleton.mp hm)
    rw [if_neg this]
  | cons en rest ih =>
    rw [addToKey_cons]
    split
    · rw [bound_pattern_cons, bound_pattern_cons]
      have hiff : x ∈ en.2 ++ [b] ↔ x ∈ en.2 := by
        rw [List.mem_append]
        constructor
        · intro h
          rcases h with h1 | h2
          · exact h1
          · exact absurd (List.mem_singleton.mp h2) hxb
        · exact Or.inl
      rw [if_congr hiff rfl rfl]
    · rw [bound_pattern_cons, bound_pattern_cons]
      split
      · rfl
      · exact ih

theorem bound_pattern_rebind_raw_self {b : String} {k : JoyKey} {d : JoyBinds}
    (h : joyCount b d ≤ 1) : bound_pattern (rebind_raw d b k) b = some k :=
  bound_pattern_addToKey_self (joyCount_remove_self d h)

theorem bound_pattern_rebind_raw_ne {x b : String} (hxb : x ≠ b) (k : JoyKey)
    (d : JoyBinds) : bound_pattern (rebind_raw d b k) x = bound_pattern d x := by
  rw [rebind_raw, bound_pattern_addToKey_ne hxb, bound_pattern_remove_ne hxb]

theorem inv_rebind_raw {d : JoyBinds} (h : inv d) (b : String) (k : JoyKey) :
    inv (rebind_raw d b k) := by
  intro x
  rw [rebind_raw, joyCount_addToKey]
  by_cases hx : x = b
  · rw [if_pos hx, hx, joyCount_remove_self d (h b)]
  · rw [if_neg hx, joyCount_remove_ne hx]
    have := h x
    omega

theorem inv_remove_bind {d : JoyBinds} (h : inv d) (b : String) :
    inv (remove_bind d b) := by
  intro x
  calc joyCount x (remove_bind d b) ≤ joyCount x d := joyCount_remove_le x b d
    _ ≤ 1 := h x

theorem scount_pos_of_mem {b : String} {l : List String} (h : b ∈ l) :
    1 ≤ scount b l := by
  rcases Nat.eq_zero_or_pos (scount b l) with h0 | h1
  · exact absurd h (not_mem_of_scount_eq_zero h0)
  · exact h1

theorem inv_tail {en : JoyKey × List String} {rest : JoyBinds}
    (h : inv (en :: rest)) : inv rest := by
  intro x
  have := h x
  rw [joyCount_cons] at this
  omega

theorem inv_innerFold {k : JoyKey} {l : List String} :
    ∀ {d : JoyBinds}, inv d →
      inv (l.foldl (fun a c => rebind_raw a c k) d) := by
  induction l with
  | nil => intro d h; exact h
  | cons x r ih =>
    intro d h
    rw [List.foldl_cons]
    exact ih (inv_rebind_raw h x k)

theorem bound_pattern_innerFold_not_mem {b : String} {k : JoyKey} {l : List String}
    (hb : b ∉ l) :
    ∀ {d : JoyBinds},
      bound_pattern (l.foldl (fun a c => rebind_raw a c k) d) b = bound_pattern d b := by
  induction l with
  | nil => intro d; rfl
  | cons x r ih =>
    intro d
    have hbx : b ≠ x := fun e => hb (by rw [e]; exact List.mem_cons_self x r)
    have hbr : b ∉ r := fun m => hb (List.mem_cons_of_mem _ m)
    rw [List.foldl_cons, ih hbr, bound_pattern_rebind_raw_ne hbx]

theorem bound_pattern_innerFold_mem {b : String} {k : JoyKey} {l : List String}
    (hb : b ∈ l) :
    ∀ {d : JoyBinds}, inv d →
      bound_pattern (l.foldl (fun a c => rebind_raw a c k) d) b = some k := by
  induction l with
  | nil => exact absurd hb (List.not_mem_nil b)
  | cons x r ih =>
    intro d h
    rw [List.foldl_cons]
    by_cases hbr : b ∈ r
    · exact ih hbr (inv_rebind_raw h x k)
    · have hbx : b = x := by
        rcases List.mem_cons.mp hb with he | hm
        · exact he
        · exact absurd hm hbr
      rw [bound_pattern_innerFold_not_mem hbr, hbx,
        bound_pattern_rebind_raw_self (h x)]

theorem merge_cons (d : JoyBinds) (en : JoyKey × List String) (rest : JoyBinds) :
    merge d (en :: rest) = merge (en.2.foldl (fun a c => rebind_raw a c en.1) d) rest := rfl

theorem inv_merge {other : JoyBinds} :
    ∀ {d : JoyBinds}, inv d → inv (merge d other) := by
  induction other with
  | nil => intro d h; exact h
  | cons en rest ih =>
    intro d h
    rw [merge_cons]
    exact ih (inv_innerFold h)

theorem bound_pattern_merge_not_mem {b : String} {other : JoyBinds}
    (hb : joyCount b other = 0) :
    ∀ {d : JoyBinds}, bound_pattern (merge d other) b = bound_pattern d b := by
  induction other with
  | nil => intro d; rfl
  | cons en rest ih =>
    intro d
    rw [joyCount_cons] at hb
    have h1 : b ∉ en.2 := not_mem_of_scount_eq_zero (by omega)
    rw [merge_cons, ih (by omega), bound_pattern_innerFold_not_mem h1]

theorem bound_pattern_merge_mem {b : String} {t : JoyKey} {other : JoyBinds} :
    ∀ {d : JoyBinds}, inv d → inv other → bound_pattern other b = some t →
      bound_pattern (merge d other) b = some t := by
  induction other with
  | nil => intro d _ _ hb; exact absurd hb (by rw [bound_pattern]; simp)
  | cons en rest ih =>
    intro d hd ho hb
    rw [bound_pattern_cons] at hb
    rw [merge_cons]
    by_cases hmem : b ∈ en.2
    · rw [if_pos hmem] at hb
      have hrest : joyCount b rest = 0 := by
        have h1 := scount_pos_of_mem hmem
        have h2 := ho b
        rw [joyCount_cons] at h2
        omega
      rw [bound_pattern_merge_not_mem hrest,
        bound_pattern_innerFold_mem hmem hd, hb]
    · rw [if_neg hmem] at hb
      exact ih (inv_innerFold hd) (inv_tail ho) hb

theorem inv_generate_bind {d : JoyBinds} (h : inv d) (b : String)
    (jd : Option EventDict) : inv (generate_bind d b jd) := by
  rw [generate_bind]
  split
  · exact h
  · next hb =>
    intro x
    rw [joyCount_addToKey]
    by_cases hx : x = b
    · rw [if_pos hx, hx, (@bound_pattern_eq_none_iff b d).mp hb]
    · rw [if_neg hx]
      have := h x
      omega

end JoyMap

namespace KeyMap

@[simp] theorem kbcount_nil (b : String) : kbcount b [] = 0 := rfl

@[simp] theorem kbcount_cons (b : String) (kb : KeyBind) (r : List KeyBind) :
    kbcount b (kb :: r) = (if kb.bind_name = b then 1 else 0) + kbcount b r := rfl

@[simp] theorem keyCount_nil (b : String) : keyCount b [] = 0 := rfl

@[simp] theorem keyCount_cons (b : String) (en : Option Nat × List KeyBind)
    (rest : KeyBinds) :
    keyCount b (en :: rest) = kbcount b en.2 + keyCount b rest := rfl

theorem find_named_eq_none_iff {b : String} {l : List KeyBind} :
    l.find? (fun kb => decide (kb.bind_name = b)) = none ↔ kbcount b l = 0 := by
  induction l with
  | nil => simp
  | cons kb r ih =>
    by_cases h : kb.bind_name = b
    · rw [List.find?_cons_of_pos _ (by simpa using h), kbcount_cons, if_pos h]
      constructor
      · intro hc; exact absurd hc (by simp)
      · intro hc; exact absurd hc (by omega)
    · rw [List.find?_cons_of_neg _ (by simpa using h), kbcount_cons, if_neg h,
        Nat.zero_add]
      exact ih

theorem kbcount_removeOne_self {b : String} (l : List KeyBind) :
    kbcount b (removeOne (fun kb => decide (kb.bind_name = b)) l) = kbcount b l - 1 := by
  induction l with
  | nil => rfl
  | cons kb r ih =>
    rw [JoyMap.removeOne_cons]
    by_cases h : kb.bind_name = b
    · rw [if_pos (by simp [h]), kbcount_cons, if_pos h]
      omega
    · rw [if_neg (by simp [h]), kbcount_cons, kbcount_cons, if_neg h, ih]
      omega

@[simp] theorem gbk_nil (b : String) : get_bound_key [] b = none := rfl

theorem gbk_cons_found {en : Option Nat × List KeyBind} {rest : KeyBinds}
    {b : String} {kb : KeyBind}
    (h : en.2.find? (fun kb => decide (kb.bind_name = b)) = some kb) :
    get_bound_key (en :: rest) b = some (en.1, kb.mod) := by
  rw [get_bound_key, h]

theorem gbk_cons_notfound {en : Option Nat × List KeyBind} {rest : KeyBinds}
    {b : String}
    (h : en.2.find? (fun kb => decide (kb.bind_name = b)) = none) :
    get_bound_key (en :: rest) b = get_bound_key rest b := by
  rw [get_bound_key, h]

theorem gbk_eq_none_iff {b : String} {m : KeyBinds} :
    get_bound_key m b = none ↔ keyCount b m = 0 := by
  induction m with
  | nil => simp
  | cons en rest ih =>
    rcases hf : en.2.find? (fun kb => decide (kb.bind_name = b)) with _ | kb
    · rw [gbk_cons_notfound hf, keyCount_cons, find_named_eq_none_iff.mp hf,
        Nat.zero_add]
      exact ih
    · have h1 : kbcount b en.2 ≠ 0 := by
        intro h0
        rw [← find_named_eq_none_iff] at h0
        rw [h0] at hf
        exact Option.noConfusion hf
      rw [gbk_cons_found hf, keyCount_cons]
      exact ⟨fun hc => Option.noConfusion hc, fun hc => absurd hc (by omega)⟩

theorem key_remove_bind_cons (en : Option Nat × List KeyBind) (rest : KeyBinds)
    (b : String) :
    remove_bind (en :: rest) b =
      if (removeOne (fun kb => decide (kb.bind_name = b)) en.2).isEmpty
      then remove_bind rest b
      else (en.1, removeOne (fun kb => decide (kb.bind_name = b)) en.2) ::
        remove_bind rest b := rfl

theorem keyCount_remove_self {b : String} (m : KeyBinds) (h : keyCount b m ≤ 1) :
    keyCount b (remove_bind m b) = 0 := by
  induction m with
  | nil => rfl
  | cons en rest ih =>
    rw [keyCount_cons] at h
    rw [key_remove_bind_cons]
    split
    · exact ih (by omega)
    · rw [keyCount_cons, kbcount_removeOne_self, ih (by omega)]
      omega

theorem gbk_remove_self {b : String} (m : KeyBinds) (h : keyCount b m ≤ 1) :
    get_bound_key (remove_bind m b) b = none :=
  gbk_eq_none_iff.mpr (keyCount_remove_self m h)

theorem key_addToKey_cons (en : Option Nat × List KeyBind) (rest : KeyBinds)
    (k : Option Nat) (kb : KeyBind) :
    addToKey (en :: rest) k kb =
      if en.1 = k then (en.1, en.2 ++ [kb]) :: rest else en :: addToKey rest k kb := by
  rw [addToKey, dupdate]
  split <;> rfl

theorem find_named_append_self {b : String} {mo : Option Nat} {l : List KeyBind}
    (h : kbcount b l = 0) :
    (l ++ [(⟨b, mo⟩ : KeyBind)]).find? (fun kb => decide (kb.bind_name = b)) =
      some ⟨b, mo⟩ := by
  induction l with
  | nil => rw [List.nil_append, List.find?_cons_of_pos _ (by simp)]
  | cons kb r ih =>
    rw [kbcount_cons] at h
    have h1 : ¬ kb.bind_name = b := by
      intro he
      rw [if_pos he] at h
      omega
    rw [List.cons_append, List.find?_cons_of_neg _ (by simpa using h1)]
    exact ih (by omega)

theorem gbk_addToKey_self {b : String} {mo : Option Nat} {k : Option Nat}
    {m : KeyBinds} (h : keyCount b m = 0) :
    get_bound_key (addToKey m k ⟨b, mo⟩) b = some (k, mo) := by
  induction m with
  | nil =>
    rw [addToKey, dupdate, List.nil_append]
    exact @gbk_cons_found (k, [⟨b, mo⟩]) [] b ⟨b, mo⟩
      (List.find?_cons_of_pos _ (show decide (b = b) = true by simp))
  | cons en rest ih =>
    rw [keyCount_cons] at h
    rw [key_addToKey_cons]
    split
    · next hk =>
      rw [gbk_cons_found (find_named_append_self (by omega)), hk]
    · rw [gbk_cons_notfound (find_named_eq_none_iff.mpr (by omega))]
      exact ih (by omega)

theorem gbk_rebind_self {b : String} {mo : Option Nat} {k : Option Nat}
    {m : KeyBinds} (h : keyCount b m ≤ 1) :
    get_bound_key (rebind m ⟨b, mo⟩ k) b = some (k, mo) := by
  rw [rebind]
  exact gbk_addToKey_self (keyCount_remove_self m h)

theorem gbk_rebind_self_kb {kb : KeyBind} {k : Option Nat} {m : KeyBinds}
    (h : keyCount kb.bind_name m ≤ 1) :
    get_bound_key (rebind m kb k) kb.bind_name = some (k, kb.mod) := by
  rcases kb with ⟨n, mo⟩
  exact gbk_rebind_self h

theorem kbcount_append (x : String) (l1 l2 : List KeyBind) :
    kbcount x (l1 ++ l2) = kbcount x l1 + kbcount x l2 := by
  induction l1 with
  | nil => simp
  | cons kb r ih => rw [List.cons_append, kbcount_cons, kbcount_cons, ih]; omega

theorem kbcount_pos_of_mem {x : String} {kb : KeyBind} {l : List KeyBind}
    (hm : kb ∈ l) (hn : kb.bind_name = x) : 1 ≤ kbcount x l := by
  induction l with
  | nil => exact absurd hm (List.not_mem_nil kb)
  | cons kb0 r ih =>
    rw [kbcount_cons]
    rcases List.mem_cons.mp hm with he | hr
    · rw [if_pos (by rw [← he]; exact hn)]
      omega
    · have := ih hr
      omega

theorem kbcount_eq_zero_not_named {x : String} {l : List KeyBind}
    (h : kbcount x l = 0) : ∀ kb ∈ l, kb.bind_name ≠ x := by
  intro kb hm hn
  have := kbcount_pos_of_mem hm hn
  omega

theorem kbcount_removeOne_ne {x b : String} (hxb : x ≠ b) (l : List KeyBind) :
    kbcount x (removeOne (fun kb => decide (kb.bind_name = b)) l) = kbcount x l := by
  induction l with
  | nil => rfl
  | cons kb0 r ih =>
    rw [JoyMap.removeOne_cons]
    by_cases hb : kb0.bind_name = b
    · have hx : ¬ kb0.bind_name = x := by
        rw [hb]
        exact fun e => hxb e.symm
      rw [if_pos (by simp [hb]), kbcount_cons, if_neg hx]
      omega
    · rw [if_neg (by simp [hb]), kbcount_cons, kbcount_cons, ih]

theorem kbcount_removeOne_le (x b : String) (l : List KeyBind) :
    kbcount x (removeOne (fun kb => decide (kb.bind_name = b)) l) ≤ kbcount x l := by
  by_cases hx : x = b
  · rw [hx, kbcount_removeOne_self]
    omega
  · rw [kbcount_removeOne_ne hx]

theorem keyCount_remove_le (x b : String) (m : KeyBinds) :
    keyCount x (remove_bind m b) ≤ keyCount x m := by
  induction m with
  | nil => exact Nat.le_refl 0
  | cons en rest ih =>
    rw [key_remove_bind_cons]
    have hle := kbcount_removeOne_le x b en.2
    split
    · rw [keyCount_cons]
      omega
    · rw [keyCount_cons, keyCount_cons]
      dsimp only
      omega

theorem keyCount_remove_ne {x b : String} (hxb : x ≠ b) (m : KeyBinds) :
    keyCount x (remove_bind m b) = keyCount x m := by
  induction m with
  | nil => rfl
  | cons en rest ih =>
    rw [key_remove_bind_cons]
    split
    · next hemp =>
      have hs : kbcount x en.2 = 0 := by
        rw [← kbcount_removeOne_ne hxb en.2]
        rw [List.isEmpty_iff] at hemp
        rw [hemp]
        rfl
      rw [keyCount_cons, hs, Nat.zero_add, ih]
    · rw [keyCount_cons, keyCount_cons, kbcount_removeOne_ne hxb, ih]

theorem find_named_removeOne_ne {x b : String} (hxb : x ≠ b) (l : List KeyBind) :
    (removeOne (fun kb => decide (kb.bind_name = b)) l).find?
        (fun kb => decide (kb.bind_name = x)) =
      l.find? (fun kb => decide (kb.bind_name = x)) := by
  induction l with
  | nil => rfl
  | cons kb0 r ih =>
    rw [JoyMap.removeOne_cons]
    by_cases hb : kb0.bind_name = b
    · have hx : ¬ kb0.bind_name = x := by
        rw [hb]
        exact fun e => hxb e.symm
      rw [if_pos (by simp [hb]), List.find?_cons_of_neg _ (by simpa using hx)]
    · rw [if_neg (by simp [hb])]
      by_cases hx : kb0.bind_name = x
      · rw [List.find?_cons_of_pos _ (by simpa using hx),
          List.find?_cons_of_pos _ (by simpa using hx)]
      · rw [List.find?_cons_of_neg _ (by simpa using hx),
          List.find?_cons_of_neg _ (by simpa using hx), ih]

theorem gbk_remove_ne {x b : String} (hxb : x ≠ b) (m : KeyBinds) :
    get_bound_key (remove_bind m b) x = get_bound_key m x := by
  induction m with
  | nil => rfl
  | cons en rest ih =>
    rw [key_remove_bind_cons]
    split
    · next hemp =>
      rw [List.isEmpty_iff] at hemp
      have h0 : en.2.find? (fun kb => decide (kb.bind_name = x)) = none := by
        rw [← find_named_removeOne_ne hxb en.2, hemp]
        rfl
      rw [gbk_cons_notfound h0]
      exact ih
    · rcases hf : en.2.find? (fun kb => decide (kb.bind_name = x)) with _ | kb
      · have h0 : (removeOne (fun kb => decide (kb.bind_name = b)) en.2).find?
            (fun kb => decide (kb.bind_name = x)) = none := by
          rw [find_named_removeOne_ne hxb, hf]
        rw [gbk_cons_notfound h0, gbk_cons_notfound hf]
        exact ih
      · have h0 : (removeOne (fun kb => decide (kb.bind_name = b)) en.2).find?
            (fun kb => decide (kb.bind_name = x)) = some kb := by
          rw [find_named_removeOne_ne hxb, hf]
        rw [gbk_cons_found h0, gbk_cons_found hf]

theorem key_remove_bind_nonempty {b : String} {m : KeyBinds}
    {en : Option Nat × List KeyBind} (h : en ∈ remove_bind m b) : en.2 ≠ [] := by
  induction m with
  | nil => exact absurd h (List.not_mem_nil _)
  | cons en0 rest ih =>
    rw [key_remove_bind_cons] at h
    split at h
    · exact ih h
    · next hemp =>
      rcases List.mem_cons.mp h with he | hm2
      · rw [he]
        intro hc
        rw [List.isEmpty_iff] at hemp
        exact hemp hc
      · exact ih hm2

theorem find_named_append_ne {x : String} {kb0 : KeyBind}
    (hne : kb0.bind_name ≠ x) (l : List KeyBind) :
    (l ++ [kb0]).find? (fun kb => decide (kb.bind_name = x)) =
      l.find? (fun kb => decide (kb.bind_name = x)) := by
  induction l with
  | nil =>
    rw [List.nil_append, List.find?_cons_of_neg _ (by simpa using hne)]
  | cons kb1 r ih =>
    by_cases hx : kb1.bind_name = x
    · rw [List.cons_append, List.find?_cons_of_pos _ (by simpa using hx),
        List.find?_cons_of_pos _ (by simpa using hx)]
    · rw [List.cons_append, List.find?_cons_of_neg _ (by simpa using hx),
        List.find?_cons_of_neg _ (by simpa using hx), ih]

theorem gbk_addToKey_ne {x : String} {kb0 : KeyBind} (hne : kb0.bind_name ≠ x)
    (k : Option Nat) (m : KeyBinds) :
    get_bound_key (addToKey m k kb0) x = get_bound_key m x := by
  induction m with
  | nil =>
    rw [addToKey, dupdate]
    have h0 : (([] : List KeyBind) ++ [kb0]).find?
        (fun kb => decide (kb.bind_name = x)) = none := by
      rw [find_named_append_ne hne]
      rfl
    rw [gbk_cons_notfound h0]
  | cons en rest ih =>
    rw [key_addToKey_cons]
    split
    · rcases hf : en.2.find? (fun kb => decide (kb.bind_name = x)) with _ | kb
      · have h0 : (en.2 ++ [kb0]).find? (fun kb => decide (kb.bind_name = x)) = none := by
          rw [find_named_append_ne hne, hf]
        rw [gbk_cons_notfound h0, gbk_cons_notfound hf]
      · have h0 : (en.2 ++ [kb0]).find? (fun kb => decide (kb.bind_name = x)) = some kb := by
          rw [find_named_append_ne hne, hf]
        rw [gbk_cons_found h0, gbk_cons_found hf]
    · rcases hf : en.2.find? (fun kb => decide (kb.bind_name = x)) with _ | kb
      · rw [gbk_cons_notfound hf, gbk_cons_notfound hf]
        exact ih
      · rw [gbk_cons_found hf, gbk_cons_found hf]

theorem keyCount_addToKey (x : String) (kb0 : KeyBind) (k : Option Nat)
    (m : KeyBinds) :
    keyCount x (addToKey m k kb0) =
      keyCount x m + (if kb0.bind_name = x then 1 else 0) := by
  induction m with
  | nil =>
    rw [addToKey, dupdate, keyCount_cons, keyCount_nil]
    dsimp only
    rw [List.nil_append, kbcount_cons, kbcount_nil]
    omega
  | cons en rest ih =>
    rw [key_addToKey_cons]
    split
    · rw [keyCount_cons, keyCount_cons]
      dsimp only
      rw [kbcount_append, kbcount_cons, kbcount_nil]
      omega
    · rw [keyCount_cons, keyCount_cons, ih]
      omega

theorem key_inv_rebind {m : KeyBinds} (h : inv m) (kb : KeyBind) (k : Option Nat) :
    inv (rebind m kb k) := by
  intro x
  rw [rebind, keyCount_addToKey]
  by_cases hx : kb.bind_name = x
  · rw [if_pos hx, ← hx, keyCount_remove_self m (h kb.bind_name)]
  · rw [if_neg hx, keyCount_remove_ne (fun e => hx e.symm)]
    have := h x
    omega

theorem gbk_rebind_ne {x : String} {kb : KeyBind} (hne : kb.bind_name ≠ x)
    (k : Option Nat) (m : KeyBinds) :
    get_bound_key (rebind m kb k) x = get_bound_key m x := by
  rw [rebind, gbk_addToKey_ne hne, gbk_remove_ne (fun e => hne e.symm)]

theorem key_inv_tail {en : Option Nat × List KeyBind} {rest : KeyBinds}
    (h : inv (en :: rest)) : inv rest := by
  intro x
  have := h x
  rw [keyCount_cons] at this
  omega

theorem key_inv_innerFold {k : Option Nat} {l : List KeyBind} :
    ∀ {m : KeyBinds}, inv m → inv (l.foldl (fun a kb => rebind a kb k) m) := by
  induction l with
  | nil => intro m h; exact h
  | cons kb0 r ih =>
    intro m h
    rw [List.foldl_cons]
    exact ih (key_inv_rebind h kb0 k)

theorem gbk_innerFold_not_named {x : String} {k : Option Nat} {l : List KeyBind}
    (hl : ∀ kb ∈ l, kb.bind_name ≠ x) :
    ∀ {m : KeyBinds},
      get_bound_key (l.foldl (fun a kb => rebind a kb k) m) x =
        get_bound_key m x := by
  induction l with
  | nil => intro m; rfl
  | cons kb0 r ih =>
    intro m
    have h0 : kb0.bind_name ≠ x := hl kb0 (List.mem_cons_self kb0 r)
    have hr : ∀ kb ∈ r, kb.bind_name ≠ x :=
      fun kb hm => hl kb (List.mem_cons_of_mem _ hm)
    rw [List.foldl_cons, ih hr, gbk_rebind_ne h0]

theorem gbk_innerFold_found {x : String} {k : Option Nat} {l : List KeyBind}
    {kb : KeyBind} (hmem : kb ∈ l) (hn : kb.bind_name = x)
    (hcc : kbcount x l ≤ 1) :
    ∀ {m : KeyBinds}, inv m →
      get_bound_key (l.foldl (fun a kb => rebind a kb k) m) x =
        some (k, kb.mod) := by
  induction l with
  | nil => exact absurd hmem (List.not_mem_nil kb)
  | cons kb0 r ih =>
    intro m hm
    rw [List.foldl_cons]
    rcases List.mem_cons.mp hmem with he | hr
    · rw [← he] at hcc ⊢
      rw [kbcount_cons, if_pos hn] at hcc
      have hrz : kbcount x r = 0 := by omega
      rw [gbk_innerFold_not_named (kbcount_eq_zero_not_named hrz), ← hn,
        gbk_rebind_self_kb (hn ▸ hm x)]
    · have hrc : kbcount x r ≤ 1 := by
        rw [kbcount_cons] at hcc
        omega
      exact ih hr hrc (key_inv_rebind hm kb0 k)

theorem key_merge_cons (m : KeyBinds) (en : Option Nat × List KeyBind)
    (rest : KeyBinds) :
    merge m (en :: rest) =
      merge (en.2.foldl (fun a kb => rebind a kb en.1) m) rest := rfl

theorem gbk_merge_not_mem {x : String} {other : KeyBinds}
    (hb : keyCount x other = 0) :
    ∀ {m : KeyBinds}, get_bound_key (merge m other) x = get_bound_key m x := by
  induction other with
  | nil => intro m; rfl
  | cons en rest ih =>
    intro m
    rw [keyCount_cons] at hb
    have h1 : kbcount x en.2 = 0 := by omega
    rw [key_merge_cons, ih (by omega),
      gbk_innerFold_not_named (kbcount_eq_zero_not_named h1)]

theorem gbk_merge_mem {x : String} {t : Option Nat × Option Nat}
    {other : KeyBinds} :
    ∀ {m : KeyBinds}, inv m → inv other → get_bound_key other x = some t →
      get_bound_key (merge m other) x = some t := by
  induction other with
  | nil => intro m _ _ hb; exact absurd hb (by simp)
  | cons en rest ih =>
    intro m hm ho hb
    rw [key_merge_cons]
    rcases hf : en.2.find? (fun kb => decide (kb.bind_name = x)) with _ | kb
    · rw [gbk_cons_notfound hf] at hb
      exact ih (key_inv_innerFold hm) (key_inv_tail ho) hb
    · rw [gbk_cons_found hf] at hb
      have hkbn : kb.bind_name = x := by
        have := List.find?_some hf
        simpa using this
      have hkbm : kb ∈ en.2 := List.mem_of_find?_eq_some hf
      have h1 := kbcount_pos_of_mem hkbm hkbn
      have h2 := ho x
      rw [keyCount_cons] at h2
      have hrest : keyCount x rest = 0 := by omega
      rw [gbk_merge_not_mem hrest, gbk_innerFold_found hkbm hkbn (by omega) hm]
      exact hb

end KeyMap

theorem alookup_eq_none_of_not_mem_keys {α β : Type} [DecidableEq α]
    {d : List (α × β)} {k : α} (h : k ∉ d.map Prod.fst) : alookup d k = none := by
  induction d with
  | nil => rfl
  | cons e rest ih =>
    have h1 : ¬ e.1 = k := by
      intro he
      exact h (by rw [← he]; exact List.mem_map_of_mem Prod.fst (List.mem_cons_self e rest))
    rw [alookup, if_neg h1]
    exact ih (fun hm => h (List.mem_cons_of_mem _ hm))

theorem apop_eq_none_of_lookup_none {α β : Type} [DecidableEq α]
    {d : List (α × β)} {k : α} (h : alookup d k = none) : apop d k = none := by
  induction d with
  | nil => rfl
  | cons e rest ih =>
    rw [alookup] at h
    by_cases he : e.1 = k
    · rw [if_pos he] at h
      exact Option.noConfusion h
    · rw [if_neg he] at h
      rw [apop, if_neg he, ih h]
      rfl

theorem apop_of_lookup_some {α β : Type} [DecidableEq α]
    {d : List (α × β)} {k : α} {v : β} (hnod : (d.map Prod.fst).Nodup)
    (h : alookup d k = some v) :
    ∃ d', apop d k = some (v, d') ∧ alookup d' k = none := by
  induction d with
  | nil => exact absurd h (by rw [alookup]; simp)
  | cons e rest ih =>
    rw [List.map_cons, List.nodup_cons] at hnod
    rw [alookup] at h
    by_cases he : e.1 = k
    · rw [if_pos he] at h
      refine ⟨rest, ?_, ?_⟩
      · rw [apop, if_pos he]
        rw [Option.some_inj] at h
        rw [h]
      · apply alookup_eq_none_of_not_mem_keys
        rw [← he]
        exact hnod.1
    · rw [if_neg he] at h
      rcases ih hnod.2 h with ⟨d', hd1, hd2⟩
      refine ⟨e :: d', ?_, ?_⟩
      · rw [apop, if_neg he, hd1]
        rfl
      · rw [alookup, if_neg he]
        exact hd2

theorem alookup_clearAt {α β : Type} [DecidableEq α] (d : List (α × List β)) (k : α) :
    alookup (clearAt d k) k = (alookup d k).map (fun _ => ([] : List β)) := by
  induction d with
  | nil => rfl
  | cons e rest ih =>
    rw [clearAt, List.map_cons]
    by_cases he : e.1 = k
    · rw [if_pos he, alookup, if_pos he, alookup, if_pos he]
      rfl
    · rw [if_neg he, alookup, if_neg he, alookup, if_neg he, ← ih]
      rfl

theorem alookup_update_other {α β : Type} [DecidableEq α] {k1 k2 : α}
    (hne : k2 ≠ k1) (g : β → β) (d : List (α × β)) :
    alookup (d.map (fun e => if e.1 = k1 then (e.1, g e.2) else e)) k2 =
      alookup d k2 := by
  induction d with
  | nil => rfl
  | cons e rest ih =>
    rw [List.map_cons]
    by_cases he : e.1 = k1
    · rw [if_pos he, alookup, alookup]
      dsimp only
      have h2 : ¬ e.1 = k2 := by
        intro hc
        exact hne (by rw [← hc, he])
      rw [if_neg h2, if_neg h2]
      exact ih
    · rw [if_neg he, alookup, alookup]
      split
      · rfl
      · exact ih

namespace JoyMap

theorem convert_event_noise_free {T : EventDict}
    (h : ∀ p ∈ T, p.1 ∉ invalid_params) : convert_event T = T := by
  rw [convert_event, List.filter_eq_self]
  intro a ha
  simpa using h a ha

theorem aupdate_not_mem_keys {k : String} {v : Int} {d : EventDict}
    (h : k ∉ d.map Prod.fst) : aupdate d k v = d ++ [(k, v)] := by
  induction d with
  | nil => rfl
  | cons e rest ih =>
    have h1 : ¬ e.1 = k := by
      intro he
      exact h (by rw [← he]; exact List.mem_map_of_mem Prod.fst (List.mem_cons_self e rest))
    rw [aupdate, dupdate, if_neg h1, List.cons_append]
    have h2 : k ∉ rest.map Prod.fst := fun hm => h (List.mem_cons_of_mem _ hm)
    rw [← ih h2]
    rfl

theorem convert_pairs_aux {T : EventDict} :
    ∀ {acc : EventDict}, ((acc ++ T).map Prod.fst).Nodup →
      T.foldl (fun d kv => aupdate d kv.1 kv.2) acc = acc ++ T := by
  induction T with
  | nil => intro acc _; rw [List.foldl_nil, List.append_nil]
  | cons kv rest ih =>
    intro acc hnod
    rw [List.foldl_cons]
    have hk : kv.1 ∉ acc.map Prod.fst := by
      intro hm
      rcases List.mem_map.mp hm with ⟨e, he1, he2⟩
      have h1 : (acc ++ kv :: rest).map Prod.fst =
          acc.map Prod.fst ++ kv.1 :: rest.map Prod.fst := by
        rw [List.map_append, List.map_cons]
      rw [h1] at hnod
      have := List.disjoint_of_nodup_append hnod
      exact this hm (List.mem_cons_self _ _)
    rw [aupdate_not_mem_keys hk]
    have heq : (acc ++ [kv]) ++ rest = acc ++ kv :: rest := by
      rw [List.append_assoc, List.singleton_append]
    rw [← heq] at hnod
    rw [ih hnod, heq]

theorem convert_pairs_eq_self {T : EventDict} (h : (T.map Prod.fst).Nodup) :
    convert_pairs T = T := by
  rw [convert_pairs, convert_pairs_aux (by simpa using h), List.nil_append]

theorem scount_le_one_of_nodup {l : List String} (h : l.Nodup) (b : String) :
    scount b l ≤ 1 := by
  induction l with
  | nil => rw [scount_nil]; omega
  | cons x r ih =>
    rw [List.nodup_cons] at h
    rw [scount_cons]
    by_cases hx : x = b
    · have : b ∉ r := by rw [← hx]; exact h.1
      rw [if_pos hx, scount_eq_zero_of_not_mem this]
    · rw [if_neg hx]
      have := ih h.2
      omega

theorem joyCount_eq_scount_names (b : String) (d : JoyBinds) :
    joyCount b d = scount b ((d.map Prod.snd).flatten) := by
  induction d with
  | nil => rfl
  | cons en rest ih =>
    rw [joyCount_cons, List.map_cons, List.flatten_cons, scount_append, ih]

/-- A decidable sufficient condition for the joystick-table invariant:
the concatenation of all bind lists has no duplicate. -/
theorem inv_of_names_nodup {d : JoyBinds} (h : ((d.map Prod.snd).flatten).Nodup) :
    inv d := by
  intro b
  rw [joyCount_eq_scount_names]
  exact scount_le_one_of_nodup h b

end JoyMap

namespace KeyMap

theorem kbcount_eq_scount_names (b : String) (l : List KeyBind) :
    kbcount b l = JoyMap.scount b (l.map KeyBind.bind_name) := by
  induction l with
  | nil => rfl
  | cons kb r ih =>
    rw [kbcount_cons, List.map_cons, JoyMap.scount_cons, ih]

theorem keyCount_eq_scount_names (b : String) (m : KeyBinds) :
    keyCount b m = JoyMap.scount b ((m.map (fun en => en.2.map KeyBind.bind_name)).flatten) := by
  induction m with
  | nil => rfl
  | cons en rest ih =>
    rw [keyCount_cons, List.map_cons, List.flatten_cons, JoyMap.scount_append, ih,
      kbcount_eq_scount_names]

/-- A decidable sufficient condition for the key-table invariant:
the concatenation of all stored bind names has no duplicate. -/
theorem key_inv_of_names_nodup {m : KeyBinds}
    (h : ((m.map (fun en => en.2.map KeyBind.bind_name)).flatten).Nodup) : inv m := by
  intro b
  rw [keyCount_eq_scount_names]
  exact JoyMap.scount_le_one_of_nodup h b

end KeyMap

theorem callablesFor_clear (st : ListenerState) (b : String) (conc : Bool) (ty : Nat) :
    callablesFor
      { st with key_hooks := clearAt st.key_hooks b,
                class_listeners := clearAt st.class_listeners b } b conc ty = [] := by
  rw [callablesFor]
  dsimp only
  rw [alookup_clearAt]
  rcases hx : alookup st.key_hooks b with _ | v <;> rfl

theorem methodsFor_clear (st : ListenerState) (b : String) (conc : Bool) (ty : Nat) :
    methodsFor
      { st with key_hooks := clearAt st.key_hooks b,
                class_listeners := clearAt st.class_listeners b } b conc ty = [] := by
  rw [methodsFor]
  dsimp only
  rw [alookup_clearAt]
  rcases hx : alookup st.class_listeners b with _ | v <;> rfl

/-- Claim C1: for a key event with key code `K` and modifier bitmask `M`,
a `KeyBind` stored under `K` is accepted by event resolution iff its `mod`
is `None`, or its `mod` shares a set bit with `M`, or its `mod` equals `M`;
in particular a binding with `mod = KMOD_NONE` (0) matches exactly the
events with `M = 0`. -/
theorem c1_modifier_matching (m : KeyBinds) (ty K M : Nat) (kb : KeyBind)
    (hmem : kb ∈ bindsUnder m (some K)) :
    (kb ∈ accepted_binds m ⟨ty, some K, some M⟩ ↔
      (kb.mod = none ∨ ∃ mo, kb.mod = some mo ∧ (mo &&& M ≠ 0 ∨ mo = M)))
    ∧ (kb.mod = some 0 →
      (kb ∈ accepted_binds m ⟨ty, some K, some M⟩ ↔ M = 0)) := by
  have hval : validate_input kb ⟨ty, some K, some M⟩ = true ↔
      (kb.mod = none ∨ ∃ mo, kb.mod = some mo ∧ (mo &&& M ≠ 0 ∨ mo = M)) := by
    rcases kb with ⟨n, mo⟩
    rcases mo with _ | mo
    · simp [validate_input]
    · simp [validate_input]
  have hmain : kb ∈ accepted_binds m ⟨ty, some K, some M⟩ ↔
      (kb.mod = none ∨ ∃ mo, kb.mod = some mo ∧ (mo &&& M ≠ 0 ∨ mo = M)) := by
    rw [accepted_binds, List.mem_filter]
    constructor
    · intro h
      exact hval.mp h.2
    · intro h
      exact ⟨hmem, hval.mpr h⟩
  refine ⟨hmain, fun h0 => ?_⟩
  rw [hmain, h0]
  simp [Nat.zero_and, eq_comm]

/-- Witness for C1: a table binding "jump" to key 32 with modifier mask 1;
the iff is obtained by applying the theorem to that table. -/
theorem c1_modifier_matching_witness :
    ((⟨"jump", some 1⟩ : KeyBind) ∈
        bindsUnder [(some 32, [⟨"jump", some 1⟩])] (some 32))
    ∧ ((⟨"jump", some 1⟩ : KeyBind) ∈
        accepted_binds [(some 32, [⟨"jump", some 1⟩])] ⟨768, some 32, some 3⟩ ↔
      ((⟨"jump", some 1⟩ : KeyBind).mod = none ∨
        ∃ mo, (⟨"jump", some 1⟩ : KeyBind).mod = some mo ∧
          (mo &&& 3 ≠ 0 ∨ mo = 3))) :=
  ⟨by decide,
   (c1_modifier_matching [(some 32, [⟨"jump", some 1⟩])] 768 32 3
      ⟨"jump", some 1⟩ (by decide)).1⟩

/-- Claim C2 as stated is false on the code: two dict events whose
attribute/value maps agree (the converted patterns are permutations of each
other) but list the attributes in different orders produce different
patterns, and resolve to different bind lists. -/
theorem c2_counterexample :
    (JoyMap.convert_event [("button", 1), ("hat", 2)]).Perm
        (JoyMap.convert_event [("hat", 2), ("button", 1)])
    ∧ JoyMap.convert_event [("button", 1), ("hat", 2)] ≠
        JoyMap.convert_event [("hat", 2), ("button", 1)]
    ∧ JoyMap.get [(some (JoyMap.convert_event [("button", 1), ("hat", 2)]), ["fire"])]
        [("button", 1), ("hat", 2)] = ["fire"]
    ∧ JoyMap.get [(some (JoyMap.convert_event [("button", 1), ("hat", 2)]), ["fire"])]
        [("hat", 2), ("button", 1)] = [] := by
  refine ⟨?_, by decide, by decide, by decide⟩
  decide

/-- Claim C2 amended: two joystick event dicts whose non-noise pairs agree
in the same order produce the same pattern and resolve identically; a noise
attribute (`value`, `instance_id`, `joy`) inserted anywhere, with any
value, changes neither the pattern nor the lookup result. -/
theorem c2_noise_insensitive (l1 l2 : EventDict) (k : String) (v : Int)
    (hk : k ∈ invalid_params) :
    JoyMap.convert_event (l1 ++ (k, v) :: l2) = JoyMap.convert_event (l1 ++ l2)
    ∧ ∀ d : JoyBinds, JoyMap.get d (l1 ++ (k, v) :: l2) = JoyMap.get d (l1 ++ l2) := by
  have h1 : JoyMap.convert_event (l1 ++ (k, v) :: l2) =
      JoyMap.convert_event (l1 ++ l2) := by
    rw [JoyMap.convert_event, JoyMap.convert_event, List.filter_append,
      List.filter_append, List.filter_cons_of_neg (by simp [hk])]
  exact ⟨h1, fun d => by rw [JoyMap.get, JoyMap.get, h1]⟩

/-- Witness for C2 (amended): inserting `("value", 5)` into a button event
leaves its pattern unchanged. -/
theorem c2_noise_insensitive_witness :
    JoyMap.convert_event ([("button", 1)] ++ ("value", 5) :: []) =
      JoyMap.convert_event ([("button", 1)] ++ []) :=
  (c2_noise_insensitive [("button", 1)] [] "value" 5 (by decide)).1

/-- Claim C4: evaluation of the persistence round trip at a table holding
one unbound bind ("jump" mapped to `None`). `pack_binds` serializes it as
`"jump": null`; `_unpack_joystick` then iterates the `null` trigger and
raises `TypeError` (modelled as `none`), so the load fails instead of
reproducing the trigger mapping. -/
theorem c4_unbound_joystick_roundtrip_crash :
    unpack_joystick (JoyMap.pack_binds [(none, ["jump"])]) = none := by rfl

/-- Claim C5 as stated is false on the code: rebinding "fire" to the
trigger `[("button", 2), ("value", 7)]` (which contains the noise
attribute "value") and reading it back yields `[("button", 2)]`, not the
trigger that was passed in; the noise attribute has been stripped. -/
theorem c5_counterexample :
    JoyMap.get_bound_joystick_event
        (rebind_joystick ⟨[], [(some [("button", 1)], ["fire"])], [], [], [], []⟩
          "fire" (some [("button", 2), ("value", 7)])).1.joy_map "fire"
      = some (some [("button", 2)])
    ∧ some (some ([("button", 2)] : EventDict)) ≠
        some (some ([("button", 2), ("value", 7)] : EventDict))
    ∧ JoyMap.get_bound_joystick_event
        ([(some [("button", 1)], ["fire"])] : JoyBinds) "fire" =
        some (some [("button", 1)]) := by
  refine ⟨by decide, by decide, by decide⟩

/-- Claim C5 amended: for a bind `b` present in the relevant table (tables
satisfying the uniqueness invariant): on the key path, `_rebind_key`
returns the previous `(key, mod)` pair and a subsequent `get_bound_key`
returns exactly the new `(key, mod)`; on the joystick path, for a new
trigger `T` whose attribute names are pairwise distinct and none of which
is a noise attribute, `_rebind_joystick` returns the previously bound
trigger and a subsequent `get_bound_joystick_event` returns exactly `T` —
for a general `T` that getter returns `T` with the noise attributes
stripped (see the counterexample). -/
theorem c5_rebind_roundtrip (st : ListenerState) (b : String) (T : EventDict)
    (hpres : JoyMap.get_bound_joystick_event st.joy_map b ≠ none)
    (hinv : JoyMap.inv st.joy_map)
    (hT : ∀ p ∈ T, p.1 ∉ invalid_params)
    (hTk : (T.map Prod.fst).Nodup)
    (hkinv : KeyMap.inv st.key_map) :
    (∃ old, JoyMap.get_bound_joystick_event st.joy_map b = some old
      ∧ (rebind_joystick st b (some T)).2 = (false, old)
      ∧ JoyMap.get_bound_joystick_event
          (rebind_joystick st b (some T)).1.joy_map b = some (some T))
    ∧ (∀ oldk nk nm, KeyMap.get_bound_key st.key_map b = some oldk →
        (rebind_key st b nk nm).2 = (false, some oldk)
        ∧ KeyMap.get_bound_key (rebind_key st b nk nm).1.key_map b =
            some (nk, nm)) := by
  constructor
  · rcases hx : JoyMap.get_bound_joystick_event st.joy_map b with _ | old
    · exact absurd hx hpres
    · refine ⟨old, rfl, ?_, ?_⟩
      · simp [rebind_joystick, hx]
      · have hstate : (rebind_joystick st b (some T)).1.joy_map =
            JoyMap.rebind st.joy_map b (some T) := by
          simp [rebind_joystick, hx]
        rw [hstate, JoyMap.rebind, JoyMap.get_bound_joystick_event,
          JoyMap.bound_pattern_rebind_raw_self (hinv b)]
        simp [JoyMap.convert_event_noise_free hT, JoyMap.convert_pairs_eq_self hTk]
  · intro oldk nk nm hk
    constructor
    · simp [rebind_key, hk]
    · have hstate : (rebind_key st b nk nm).1.key_map =
          KeyMap.rebind st.key_map ⟨b, nm⟩ nk := by
        simp [rebind_key, hk]
      rw [hstate]
      exact KeyMap.gbk_rebind_self (hkinv b)

/-- Witness for C5 (amended): rebinding "fire" from `[("button", 1)]` to
`[("button", 2)]` returns the old trigger and reads back exactly the new
one; rebinding the same bind's key from `(32, 0)` to `(13, 1)` returns the
old pair and reads back exactly `(13, 1)`. -/
theorem c5_rebind_roundtrip_witness :
    (∃ old, JoyMap.get_bound_joystick_event
        ([(some [("button", 1)], ["fire"])] : JoyBinds) "fire" = some old
      ∧ (rebind_joystick ⟨[(some 32, [⟨"fire", some 0⟩])],
            [(some [("button", 1)], ["fire"])], [], [], [], []⟩
          "fire" (some [("button", 2)])).2 = (false, old)
      ∧ JoyMap.get_bound_joystick_event
          (rebind_joystick ⟨[(some 32, [⟨"fire", some 0⟩])],
              [(some [("button", 1)], ["fire"])], [], [], [], []⟩
            "fire" (some [("button", 2)])).1.joy_map "fire" =
          some (some [("button", 2)]))
    ∧ ((rebind_key ⟨[(some 32, [⟨"fire", some 0⟩])],
          [(some [("button", 1)], ["fire"])], [], [], [], []⟩
        "fire" (some 13) (some 1)).2 = (false, some (some 32, some 0))
      ∧ KeyMap.get_bound_key
          (rebind_key ⟨[(some 32, [⟨"fire", some 0⟩])],
              [(some [("button", 1)], ["fire"])], [], [], [], []⟩
            "fire" (some 13) (some 1)).1.key_map "fire" =
          some (some 13, some 1)) :=
  ⟨(c5_rebind_roundtrip ⟨[(some 32, [⟨"fire", some 0⟩])],
      [(some [("button", 1)], ["fire"])], [], [], [], []⟩
      "fire" [("button", 2)] (by decide) (JoyMap.inv_of_names_nodup (by decide))
      (by decide) (by decide) (KeyMap.key_inv_of_names_nodup (by decide))).1,
   (c5_rebind_roundtrip ⟨[(some 32, [⟨"fire", some 0⟩])],
      [(some [("button", 1)], ["fire"])], [], [], [], []⟩
      "fire" [("button", 2)] (by decide) (JoyMap.inv_of_names_nodup (by decide))
      (by decide) (by decide) (KeyMap.key_inv_of_names_nodup (by decide))).2
      (some 32, some 0) (some 13) (some 1) (by decide)⟩

/-- Claim C3 as stated is false on the code: a bind registered only through
the method path (`_capture_method` put "jump" into the key table and the
class-method index, but `_key_hooks` has no entry for it) is NOT removed by
`clear_bind("jump", eliminate_bind=True)` — the call only warns, and the
bind is still present in the key table afterwards. -/
theorem c3_counterexample :
    clear_bind (capture_method emptyListener 1 7 true "jump" (some 32) none 768 none)
        "jump" true
      = (capture_method emptyListener 1 7 true "jump" (some 32) none 768 none, true)
    ∧ KeyMap.get_bound_key
        (capture_method emptyListener 1 7 true "jump" (some 32) none 768 none).key_map
        "jump" = some (some 32, none) := by
  exact ⟨by decide, by decide⟩

/-- Claim C3 amended: `clear_bind(b, False)` warns and is a no-op when `b`
is in neither handler index, and otherwise empties both handler indexes for
`b` (so resolution finds zero callables for `b`) while leaving both trigger
tables untouched; `clear_bind(b, True)` removes `b` from both tables and
drops its function-index entry provided `b` has a `_key_hooks` entry, and
warns and is a no-op when it does not (even when `b` is registered in the
tables through the method path — see the counterexample). -/
theorem c3_clear_bind (st : ListenerState) (b : String)
    (hkinv : KeyMap.inv st.key_map) (hjinv : JoyMap.inv st.joy_map)
    (hnod : (st.key_hooks.map Prod.fst).Nodup) :
    (alookup st.key_hooks b = none → alookup st.class_listeners b = none →
      clear_bind st b false = (st, true))
    ∧ ((alookup st.key_hooks b ≠ none ∨ alookup st.class_listeners b ≠ none) →
      (clear_bind st b false).2 = false
      ∧ (∀ conc ty, callablesFor (clear_bind st b false).1 b conc ty = []
          ∧ methodsFor (clear_bind st b false).1 b conc ty = [])
      ∧ (clear_bind st b false).1.key_map = st.key_map
      ∧ (clear_bind st b false).1.joy_map = st.joy_map)
    ∧ (alookup st.key_hooks b = none → clear_bind st b true = (st, true))
    ∧ (∀ v, alookup st.key_hooks b = some v →
      (clear_bind st b true).2 = false
      ∧ KeyMap.get_bound_key (clear_bind st b true).1.key_map b = none
      ∧ JoyMap.bound_pattern (clear_bind st b true).1.joy_map b = none
      ∧ alookup (clear_bind st b true).1.key_hooks b = none) := by
  refine ⟨fun h1 h2 => ?_, fun h => ?_, fun h1 => ?_, fun v hv => ?_⟩
  · simp [clear_bind, h1, h2]
  · have hcond : ((alookup st.key_hooks b).isNone &&
        (alookup st.class_listeners b).isNone) = false := by
      rcases h with h | h
      · rcases hx : alookup st.key_hooks b with _ | v
        · exact absurd hx h
        · simp [hx]
      · rcases hx : alookup st.class_listeners b with _ | v
        · exact absurd hx h
        · simp [hx]
    have hred : clear_bind st b false =
        ({ st with key_hooks := clearAt st.key_hooks b,
                   class_listeners := clearAt st.class_listeners b }, false) := by
      simp [clear_bind, hcond]
    rw [hred]
    exact ⟨rfl,
      fun conc ty => ⟨callablesFor_clear st b conc ty, methodsFor_clear st b conc ty⟩,
      rfl, rfl⟩
  · have hp : apop st.key_hooks b = none := apop_eq_none_of_lookup_none h1
    simp [clear_bind, hp]
  · rcases apop_of_lookup_some hnod hv with ⟨kh, hpop, hlook⟩
    have hred : clear_bind st b true =
        ({ st with key_hooks := kh,
                   key_map := KeyMap.remove_bind st.key_map b,
                   joy_map := JoyMap.remove_bind st.joy_map b }, false) := by
      simp [clear_bind, hpop]
    rw [hred]
    exact ⟨rfl, KeyMap.gbk_remove_self st.key_map (hkinv b),
      JoyMap.bound_pattern_eq_none_iff.mpr
        (JoyMap.joyCount_remove_self st.joy_map (hjinv b)),
      hlook⟩

/-- Witness for C3 (amended): a listener whose `_key_hooks` knows "jump";
eliminating the bind clears it from the hook index and both tables. -/
theorem c3_clear_bind_witness :
    (clear_bind ⟨[], [], [("jump", [])], [], [], []⟩ "jump" true).2 = false
    ∧ KeyMap.get_bound_key
        (clear_bind ⟨[], [], [("jump", [])], [], [], []⟩ "jump" true).1.key_map
        "jump" = none
    ∧ JoyMap.bound_pattern
        (clear_bind ⟨[], [], [("jump", [])], [], [], []⟩ "jump" true).1.joy_map
        "jump" = none
    ∧ alookup
        (clear_bind ⟨[], [], [("jump", [])], [], [], []⟩ "jump" true).1.key_hooks
        "jump" = none :=
  (c3_clear_bind ⟨[], [], [("jump", [])], [], [], []⟩ "jump"
    (fun _ => Nat.zero_le 1) (fun _ => Nat.zero_le 1) (by decide)).2.2.2 [] (by decide)

/-- Claim C6: merge is bind-granular with latter-wins semantics on both
tables — after `A.merge(B)` every bind of `B` is bound to the trigger it
had in `B` (the pattern key for the joystick table, the `(key, mod)` pair
for the key table), and every bind absent from `B` keeps its binding of
`A` (all tables assumed to satisfy the uniqueness invariant). -/
theorem c6_merge_bind_granular (A B : JoyBinds) (A2 B2 : KeyBinds)
    (hA : JoyMap.inv A) (hB : JoyMap.inv B)
    (hA2 : KeyMap.inv A2) (hB2 : KeyMap.inv B2) :
    (∀ b t, JoyMap.bound_pattern B b = some t →
      JoyMap.bound_pattern (JoyMap.merge A B) b = some t)
    ∧ (∀ b, JoyMap.bound_pattern B b = none →
      JoyMap.bound_pattern (JoyMap.merge A B) b = JoyMap.bound_pattern A b)
    ∧ (∀ b t, KeyMap.get_bound_key B2 b = some t →
      KeyMap.get_bound_key (KeyMap.merge A2 B2) b = some t)
    ∧ (∀ b, KeyMap.get_bound_key B2 b = none →
      KeyMap.get_bound_key (KeyMap.merge A2 B2) b = KeyMap.get_bound_key A2 b) :=
  ⟨fun _ _ h => JoyMap.bound_pattern_merge_mem hA hB h,
   fun _ h => JoyMap.bound_pattern_merge_not_mem (JoyMap.bound_pattern_eq_none_iff.mp h),
   fun _ _ h => KeyMap.gbk_merge_mem hA2 hB2 h,
   fun _ h => KeyMap.gbk_merge_not_mem (KeyMap.gbk_eq_none_iff.mp h)⟩

/-- Witness for C6: the spec's concrete instance — A = \x7bx:K1, y:K2\x7d merged
with B = \x7by:K3, z:K4\x7d yields \x7bx:K1, y:K3, z:K4\x7d, on the joystick table
and on the key table. -/
theorem c6_merge_bind_granular_witness :
    JoyMap.bound_pattern
        (JoyMap.merge
          [(some [("button", 1)], ["x"]), (some [("button", 2)], ["y"])]
          [(some [("button", 3)], ["y"]), (some [("button", 4)], ["z"])]) "x" =
      some (some [("button", 1)])
    ∧ JoyMap.bound_pattern
        (JoyMap.merge
          [(some [("button", 1)], ["x"]), (some [("button", 2)], ["y"])]
          [(some [("button", 3)], ["y"]), (some [("button", 4)], ["z"])]) "y" =
      some (some [("button", 3)])
    ∧ JoyMap.bound_pattern
        (JoyMap.merge
          [(some [("button", 1)], ["x"]), (some [("button", 2)], ["y"])]
          [(some [("button", 3)], ["y"]), (some [("button", 4)], ["z"])]) "z" =
      some (some [("button", 4)])
    ∧ KeyMap.get_bound_key
        (KeyMap.merge [(some 1, [⟨"x", none⟩]), (some 2, [⟨"y", none⟩])]
          [(some 3, [⟨"y", some 0⟩]), (some 4, [⟨"z", none⟩])]) "x" =
      some (some 1, none)
    ∧ KeyMap.get_bound_key
        (KeyMap.merge [(some 1, [⟨"x", none⟩]), (some 2, [⟨"y", none⟩])]
          [(some 3, [⟨"y", some 0⟩]), (some 4, [⟨"z", none⟩])]) "y" =
      some (some 3, some 0)
    ∧ KeyMap.get_bound_key
        (KeyMap.merge [(some 1, [⟨"x", none⟩]), (some 2, [⟨"y", none⟩])]
          [(some 3, [⟨"y", some 0⟩]), (some 4, [⟨"z", none⟩])]) "z" =
      some (some 4, none) := by
  have h := c6_merge_bind_granular
    [(some [("button", 1)], ["x"]), (some [("button", 2)], ["y"])]
    [(some [("button", 3)], ["y"]), (some [("button", 4)], ["z"])]
    [(some 1, [⟨"x", none⟩]), (some 2, [⟨"y", none⟩])]
    [(some 3, [⟨"y", some 0⟩]), (some 4, [⟨"z", none⟩])]
    (JoyMap.inv_of_names_nodup (by decide)) (JoyMap.inv_of_names_nodup (by decide))
    (KeyMap.key_inv_of_names_nodup (by decide))
    (KeyMap.key_inv_of_names_nodup (by decide))
  exact ⟨(h.2.1 "x" (by decide)).trans (by decide),
    h.1 "y" (some [("button", 3)]) (by decide),
    h.1 "z" (some [("button", 4)]) (by decide),
    (h.2.2.2 "x" (by decide)).trans (by decide),
    h.2.2.1 "y" (some 3, some 0) (by decide),
    h.2.2.1 "z" (some 4, none) (by decide)⟩

/-- Claim C7: the Dispatcher-level rebind paths never raise for an unknown
bind name — they warn, return `None` and leave both tables (the whole
state) unchanged — and for a registered bind they return the previous
trigger. -/
theorem c7_rebind_unknown_warns (st : ListenerState) (b : String)
    (nk nm : Option Nat) (jd : Option EventDict) :
    (KeyMap.get_bound_key st.key_map b = none →
      rebind_key st b nk nm = (st, true, none))
    ∧ (∀ old, KeyMap.get_bound_key st.key_map b = some old →
      (rebind_key st b nk nm).2 = (false, some old))
    ∧ (JoyMap.get_bound_joystick_event st.joy_map b = none →
      rebind_joystick st b jd = (st, true, none))
    ∧ (∀ old, JoyMap.get_bound_joystick_event st.joy_map b = some old →
      (rebind_joystick st b jd).2 = (false, old)) := by
  refine ⟨fun h => ?_, fun old h => ?_, fun h => ?_, fun old h => ?_⟩ <;>
    simp [rebind_key, rebind_joystick, h]

/-- Witness for C7: rebinding the unknown name "ghost" warns and changes
nothing; rebinding the registered "jump" returns its previous key and
modifier. -/
theorem c7_rebind_unknown_warns_witness :
    rebind_key ⟨[(some 32, [⟨"jump", some 0⟩])], [], [], [], [], []⟩
        "ghost" (some 13) none =
      (⟨[(some 32, [⟨"jump", some 0⟩])], [], [], [], [], []⟩, true, none)
    ∧ (rebind_key ⟨[(some 32, [⟨"jump", some 0⟩])], [], [], [], [], []⟩
        "jump" (some 13) none).2 = (false, some (some 32, some 0)) :=
  ⟨(c7_rebind_unknown_warns ⟨[(some 32, [⟨"jump", some 0⟩])], [], [], [], [], []⟩
      "ghost" (some 13) none none).1 (by decide),
   (c7_rebind_unknown_warns ⟨[(some 32, [⟨"jump", some 0⟩])], [], [], [], [], []⟩
      "jump" (some 13) none none).2.1 (some 32, some 0) (by decide)⟩

/-- Claim C8: the four joystick-table operations preserve the invariant
that a bind name occurs in exactly one value list and at most once in it
(formalised as: the concatenation of all value lists counts every name at
most once), assuming it held before — and for merge, also in the other
table. -/
theorem c8_joy_invariant_preserved (d : JoyBinds) (hd : JoyMap.inv d) :
    (∀ b jd, JoyMap.inv (JoyMap.generate_bind d b jd))
    ∧ (∀ b jd, JoyMap.inv (JoyMap.rebind d b jd))
    ∧ (∀ b, JoyMap.inv (JoyMap.remove_bind d b))
    ∧ (∀ B, JoyMap.inv B → JoyMap.inv (JoyMap.merge d B)) :=
  ⟨fun b jd => JoyMap.inv_generate_bind hd b jd,
   fun b jd => JoyMap.inv_rebind_raw hd b (jd.map JoyMap.convert_event),
   fun b => JoyMap.inv_remove_bind hd b,
   fun _ _ => JoyMap.inv_merge hd⟩

/-- Witness for C8: the invariant survives removing "x" from a concrete
one-entry table. -/
theorem c8_joy_invariant_preserved_witness :
    JoyMap.inv (JoyMap.remove_bind [(some [("button", 1)], ["x"])] "x") :=
  (c8_joy_invariant_preserved [(some [("button", 1)], ["x"])]
    (JoyMap.inv_of_names_nodup (by decide))).2.2.1 "x"

/-- Claim C9: after `remove_bind(b)` the lookup of `b` fails in both
tables (NotFound: `get_bound_joystick_event` and `get_bound_key` both
yield `none`), every other bind name's trigger is unchanged, and no slot
with an empty list remains in either table. -/
theorem c9_remove_bind (d : JoyBinds) (m : KeyBinds) (b : String)
    (hbj : JoyMap.bound_pattern d b ≠ none) (hinvj : JoyMap.inv d)
    (hbk : KeyMap.get_bound_key m b ≠ none) (hinvk : KeyMap.inv m) :
    JoyMap.bound_pattern (JoyMap.remove_bind d b) b = none
    ∧ JoyMap.get_bound_joystick_event (JoyMap.remove_bind d b) b = none
    ∧ (∀ x, x ≠ b →
        JoyMap.bound_pattern (JoyMap.remove_bind d b) x = JoyMap.bound_pattern d x)
    ∧ (∀ en ∈ JoyMap.remove_bind d b, en.2 ≠ [])
    ∧ KeyMap.get_bound_key (KeyMap.remove_bind m b) b = none
    ∧ (∀ x, x ≠ b →
        KeyMap.get_bound_key (KeyMap.remove_bind m b) x = KeyMap.get_bound_key m x)
    ∧ (∀ en ∈ KeyMap.remove_bind m b, en.2 ≠ []) := by
  have h1 : JoyMap.bound_pattern (JoyMap.remove_bind d b) b = none :=
    JoyMap.bound_pattern_eq_none_iff.mpr (JoyMap.joyCount_remove_self d (hinvj b))
  refine ⟨h1, ?_, fun x hx => JoyMap.bound_pattern_remove_ne hx d,
    fun en h => JoyMap.remove_bind_nonempty h,
    KeyMap.gbk_remove_self m (hinvk b),
    fun x hx => KeyMap.gbk_remove_ne hx m,
    fun en h => KeyMap.key_remove_bind_nonempty h⟩
  rw [JoyMap.get_bound_joystick_event, h1]
  rfl

/-- Witness for C9: removing "x" from tables where "x" and "y" share a
slot makes "x" unresolvable in both tables and leaves "y" bound as
before in both. -/
theorem c9_remove_bind_witness :
    JoyMap.bound_pattern
        (JoyMap.remove_bind [(some [("button", 1)], ["x", "y"])] "x") "x" = none
    ∧ JoyMap.bound_pattern
        (JoyMap.remove_bind [(some [("button", 1)], ["x", "y"])] "x") "y" =
      JoyMap.bound_pattern [(some [("button", 1)], ["x", "y"])] "y"
    ∧ KeyMap.get_bound_key
        (KeyMap.remove_bind [(some 1, [⟨"x", none⟩, ⟨"y", some 0⟩])] "x") "x" = none
    ∧ KeyMap.get_bound_key
        (KeyMap.remove_bind [(some 1, [⟨"x", none⟩, ⟨"y", some 0⟩])] "x") "y" =
      KeyMap.get_bound_key [(some 1, [⟨"x", none⟩, ⟨"y", some 0⟩])] "y" := by
  have h := c9_remove_bind [(some [("button", 1)], ["x", "y"])]
    [(some 1, [⟨"x", none⟩, ⟨"y", some 0⟩])] "x"
    (by decide) (JoyMap.inv_of_names_nodup (by decide))
    (by decide) (KeyMap.key_inv_of_names_nodup (by decide))
  exact ⟨h.1, h.2.2.1 "y" (by decide), h.2.2.2.2.1,
    h.2.2.2.2.2.1 "y" (by decide)⟩

/-- Claim C10: `key_map` and `joy_map` are class attributes of
`KeyListener`, embedded here as the shared components of the system state,
so a rebind performed through listener `h1` is observed by any listener
`h2` reading its (shared) table; the per-instance hook indexes are not
shared — a registration through `h1` leaves `h2`'s `LocalHooks` untouched. -/
theorem c10_shared_tables_isolated_hooks (sys : SysState) (h1 h2 b : String)
    (nk nm : Option Nat) (name : String) (dk dm : Option Nat) (ty : Nat)
    (conc : Bool) (f : Handler)
    (hk : KeyMap.inv sys.key_map)
    (hb : KeyMap.get_bound_key sys.key_map b ≠ none)
    (hne : h2 ≠ h1) :
    observe_bound_key (sys_rebind_key sys h1 b nk nm).1 h2 b = some (nk, nm)
    ∧ alookup (sys_bind_func sys h1 name dk dm ty conc f).listeners h2 =
        alookup sys.listeners h2 := by
  constructor
  · rcases hx : KeyMap.get_bound_key sys.key_map b with _ | old
    · exact absurd hx hb
    · have hred : (sys_rebind_key sys h1 b nk nm).1 =
          { sys with key_map := KeyMap.rebind sys.key_map ⟨b, nm⟩ nk } := by
        simp [sys_rebind_key, hx]
      rw [hred, observe_bound_key]
      exact KeyMap.gbk_rebind_self (hk b)
  · rw [sys_bind_func]
    exact alookup_update_other hne (fun v => addFuncHook v name conc ty f) sys.listeners

/-- Witness for C10: two listeners "a" and "b"; a rebind of "jump" made
through "a" is observed through "b", and a handler bound through "a" does
not change "b"'s hook entry. -/
theorem c10_shared_tables_isolated_hooks_witness :
    observe_bound_key
        (sys_rebind_key ⟨[(some 32, [⟨"jump", none⟩])], [],
          [("a", ⟨[], [], []⟩), ("b", ⟨[], [], []⟩)]⟩ "a" "jump" (some 13) (some 1)).1
        "b" "jump" = some (some 13, some 1)
    ∧ alookup (sys_bind_func ⟨[(some 32, [⟨"jump", none⟩])], [],
          [("a", ⟨[], [], []⟩), ("b", ⟨[], [], []⟩)]⟩ "a" "slide" none none 768 true
          5).listeners "b" =
        alookup ([("a", ⟨[], [], []⟩), ("b", ⟨[], [], []⟩)] :
          List (String × LocalHooks)) "b" :=
  c10_shared_tables_isolated_hooks
    ⟨[(some 32, [⟨"jump", none⟩])], [], [("a", ⟨[], [], []⟩), ("b", ⟨[], [], []⟩)]⟩
    "a" "b" "jump" (some 13) (some 1) "slide" none none 768 true 5
    (KeyMap.key_inv_of_names_nodup (by decide)) (by decide) (by decide)

end SimpleEvents
